import Mathlib

/-!
Verification of the dynamic workflow interpreter
(src/src/workflows/dynamic_workflow.py) against its specification.

Python strings are modelled as lists of characters, YAML mappings for
blocks as a tree datatype whose fields mirror the keys the interpreter
reads, and the Temporal activity dispatcher as an oracle function from
activity name and argument list to the result string.  Each execution
function additionally returns the trace of dispatched calls and the
post-state of the block tree (the interpreter mutates the args entry of
activity children inside sequential blocks).
-/

set_option maxHeartbeats 1000000

namespace DynWf

/-- Python strings, modelled as lists of characters. -/
abbrev Str := List Char

/-- The external Task Dispatcher collaborator (workflow.execute_activity):
given an activity name and its argument list it yields the result string. -/
abbrev Dispatcher := Str → List Str → Str

mutual

/-- A block mapping of the execution document: the five keys the interpreter
reads (type, activityName, args, useDataFlow, blocks).  Absent keys are
modelled as none, and the args key by its default, the empty list. -/
inductive Block where
  | node (type? : Option Str) (activityName? : Option Str) (args : List Str)
      (useDataFlow? : Option Bool) (blocks : Blocks) : Block

/-- The list of child blocks of a composite block. -/
inductive Blocks where
  | nil : Blocks
  | cons (b : Block) (bs : Blocks) : Blocks

end

end DynWf

namespace DynWf

/-- Key lookup block.get("type"). -/
def Block.type? : Block → Option Str
  | .node t _ _ _ _ => t

/-- Key lookup block.get("activityName") (raises KeyError when absent). -/
def Block.activityName? : Block → Option Str
  | .node _ n _ _ _ => n

/-- Key lookup block.get("args", []). -/
def Block.args : Block → List Str
  | .node _ _ a _ _ => a

/-- Key lookup block.get("useDataFlow", True) before the default is applied. -/
def Block.useDataFlow? : Block → Option Bool
  | .node _ _ _ u _ => u

/-- Key lookup block.get("blocks", []). -/
def Block.blocks : Block → Blocks
  | .node _ _ _ _ bs => bs

/-- The assignment sub_block["args"] = a. -/
def Block.withArgs : Block → List Str → Block
  | .node t n _ u bs, a => .node t n a u bs

/-- Conversion of the child list to an ordinary Lean list. -/
def Blocks.toList : Blocks → List Block
  | .nil => []
  | .cons b bs => b :: bs.toList

/-- Conversion of an ordinary Lean list to a child list. -/
def Blocks.ofList : List Block → Blocks
  | [] => .nil
  | b :: bs => .cons b (Blocks.ofList bs)

/-- The string constant "activity". -/
def strActivity : Str := "activity".toList

/-- The string constant "sequential". -/
def strSequential : Str := "sequential".toList

/-- The string constant "parallel". -/
def strParallel : Str := "parallel".toList

/-- The label infix "Result: " used by the record format and by the
data-flow extraction split. -/
def resPat : Str := "Result: ".toList

/-- The record line f"Activity {activity_name} Result: {result}". -/
def fmtRecord (n r : Str) : Str :=
  "Activity ".toList ++ n ++ " Result: ".toList ++ r

/-- The warning line f"Warning: Unknown block type {block_type}". -/
def warnUnknown (bt : Str) : Str :=
  "Warning: Unknown block type ".toList ++ bt

/-- Python pat in s: whether pat occurs as a contiguous substring. -/
def containsSub (pat : Str) : Str → Bool
  | [] => pat.isEmpty
  | c :: rest => pat.isPrefixOf (c :: rest) || containsSub pat rest

/-- Python s.split(pat, 1)[-1] when pat occurs in s: the suffix of s after
the first occurrence of pat. -/
def afterFirst (pat : Str) : Str → Str
  | [] => []
  | c :: rest =>
    if pat.isPrefixOf (c :: rest) then (c :: rest).drop pat.length
    else afterFirst pat rest

/-- The data-flow extraction of _execute_sequential_block:
sub_results[-1].split("Result: ", 1)[-1] if "Result: " in sub_results[-1]
else sub_results[-1]. -/
def stripResult (s : Str) : Str :=
  if containsSub resPat s then afterFirst resPat s else s

/-- What one evaluation step yields: the result record lines, the trace of
dispatched activity calls (name and argument list, in dispatch order), and
the block value after evaluation (the interpreter mutates args entries). -/
structure ExecOut where
  records : List Str
  calls : List (Str × List Str)
  post : Block

/-- The combined outcome for a list of children. -/
structure ExecsOut where
  records : List Str
  calls : List (Str × List Str)
  posts : Blocks

/-- _execute_activity_block: dispatch block["activityName"] with
block.get("args", []); KeyError (modelled as an error) when the name is
absent.  Returns the single formatted record. -/
def execute_activity_block (d : Dispatcher) (b : Block) : Except String ExecOut :=
  match b.activityName? with
  | none => .error "KeyError: activityName"
  | some n =>
    let r := d n b.args
    .ok ⟨[fmtRecord n r], [(n, b.args)], b⟩

mutual

/-- _execute_block: branch on block.get("type", "sequential"); unknown types
yield the single warning record and dispatch nothing. -/
def execute_block (d : Dispatcher) : Block → Except String ExecOut
  | .node t n a u bs =>
    let bt := t.getD strSequential
    if bt = strActivity then execute_activity_block d (.node t n a u bs)
    else if bt = strSequential then
      match execute_seq_children d bs [] with
      | .error e => .error e
      | .ok o => .ok ⟨o.records, o.calls, .node t n a u o.posts⟩
    else if bt = strParallel then
      match execute_par_children d bs with
      | .error e => .error e
      | .ok o => .ok ⟨o.records, o.calls, .node t n a u o.posts⟩
    else .ok ⟨[warnUnknown bt], [], .node t n a u bs⟩

/-- The loop body of _execute_sequential_block over block.get("blocks", [])
with the accumulated_data list.  When the child has explicit type
"activity" and useDataFlow (default true) and accumulated data exists, the
child args entry is overwritten with the last accumulated value prepended;
the child is then executed (an explicitly activity-typed child through the
activity branch of _execute_block, which is what _execute_block does on it;
any other child is unchanged and executed as is).  Afterwards, only for an
explicitly activity-typed child with results, the last record is stripped
of everything up to and including the first "Result: " and appended to the
accumulated data. -/
def execute_seq_children (d : Dispatcher) :
    Blocks → List Str → Except String ExecsOut
  | .nil, _ => .ok ⟨[], [], .nil⟩
  | .cons b rest, acc =>
    let b' :=
      if b.type? = some strActivity ∧ b.useDataFlow?.getD true = true then
        match acc.getLast? with
        | some v => b.withArgs (v :: b.args)
        | none => b
      else b
    let res :=
      if b.type? = some strActivity then execute_activity_block d b'
      else execute_block d b
    match res with
    | .error e => .error e
    | .ok o =>
      let acc' :=
        if b.type? = some strActivity then
          match o.records.getLast? with
          | some s => acc ++ [stripResult s]
          | none => acc
        else acc
      match execute_seq_children d rest acc' with
      | .error e => .error e
      | .ok r =>
        .ok ⟨o.records ++ r.records, o.calls ++ r.calls, .cons o.post r.posts⟩

/-- The body of _execute_parallel_block: every child evaluated independently
(asyncio.gather keeps the results in the original task order), the result
lists concatenated in document order. -/
def execute_par_children (d : Dispatcher) : Blocks → Except String ExecsOut
  | .nil => .ok ⟨[], [], .nil⟩
  | .cons b rest =>
    match execute_block d b with
    | .error e => .error e
    | .ok o =>
      match execute_par_children d rest with
      | .error e => .error e
      | .ok r =>
        .ok ⟨o.records ++ r.records, o.calls ++ r.calls, .cons o.post r.posts⟩

end

/-- A legacy activity invocation: activity_def["activityName"] (KeyError
when absent) and activity_def.get("args", []). -/
structure ActivityDef where
  activityName? : Option Str
  args : List Str

/-- _execute_legacy_activities: dispatch each invocation in document order
with exactly its own args; one formatted record per invocation. -/
def execute_legacy_activities (d : Dispatcher) :
    List ActivityDef → Except String (List Str × List (Str × List Str))
  | [] => .ok ([], [])
  | a :: rest =>
    match a.activityName? with
    | none => .error "KeyError: activityName"
    | some n =>
      let r := d n a.args
      match execute_legacy_activities d rest with
      | .error e => .error e
      | .ok (recs, calls) => .ok (fmtRecord n r :: recs, (n, a.args) :: calls)

/-- The parsed top-level configuration mapping: the two keys run reads.
config.get("execution", {}) on an absent key is the empty mapping, modelled
by a block with every field absent. -/
structure Config where
  activities? : Option (List ActivityDef)
  execution? : Option Block

/-- The empty mapping {} as a block. -/
def emptyBlock : Block := .node none none [] none .nil

/-- What a full run yields: records and the dispatch trace. -/
structure RunOut where
  records : List Str
  calls : List (Str × List Str)

/-- DynamicWorkflow.run on the parsed configuration: the legacy activities
key takes priority; otherwise the execution block (default empty mapping)
is evaluated. -/
def run (d : Dispatcher) (cfg : Config) : Except String RunOut :=
  match cfg.activities? with
  | some acts =>
    match execute_legacy_activities d acts with
    | .error e => .error e
    | .ok (recs, calls) => .ok ⟨recs, calls⟩
  | none =>
    match execute_block d (cfg.execution?.getD emptyBlock) with
    | .error e => .error e
    | .ok o => .ok ⟨o.records, o.calls⟩

/-- Python "\n".join(results). -/
def joinNL : List Str → Str
  | [] => []
  | [s] => s
  | s :: rest => s ++ '\n' :: joinNL rest

/-- The final string the workflow returns. -/
def output (d : Dispatcher) (cfg : Config) : Except String Str :=
  match run d cfg with
  | .error e => .error e
  | .ok o => .ok (joinNL o.records)

/-! Equation lemmas: how execute_block evaluates on each concrete type tag.
All four hold by definitional unfolding. -/

/-- Evaluation of a block with an absent type key takes the sequential branch. -/
theorem execute_block_none (d : Dispatcher) (n? : Option Str) (a : List Str)
    (u? : Option Bool) (bs : Blocks) :
    execute_block d (.node none n? a u? bs) =
      match execute_seq_children d bs [] with
      | .error e => .error e
      | .ok o => .ok ⟨o.records, o.calls, .node none n? a u? o.posts⟩ := rfl

/-- Evaluation of a block with explicit type sequential. -/
theorem execute_block_seq (d : Dispatcher) (n? : Option Str) (a : List Str)
    (u? : Option Bool) (bs : Blocks) :
    execute_block d (.node (some strSequential) n? a u? bs) =
      match execute_seq_children d bs [] with
      | .error e => .error e
      | .ok o => .ok ⟨o.records, o.calls, .node (some strSequential) n? a u? o.posts⟩ := rfl

/-- Evaluation of a block with explicit type parallel. -/
theorem execute_block_par (d : Dispatcher) (n? : Option Str) (a : List Str)
    (u? : Option Bool) (bs : Blocks) :
    execute_block d (.node (some strParallel) n? a u? bs) =
      match execute_par_children d bs with
      | .error e => .error e
      | .ok o => .ok ⟨o.records, o.calls, .node (some strParallel) n? a u? o.posts⟩ := rfl

/-- Evaluation of a block with explicit type activity dispatches the activity. -/
theorem execute_block_act (d : Dispatcher) (n? : Option Str) (a : List Str)
    (u? : Option Bool) (bs : Blocks) :
    execute_block d (.node (some strActivity) n? a u? bs) =
      execute_activity_block d (.node (some strActivity) n? a u? bs) := rfl

/-- Evaluation of any block whose type entry is the string activity goes
through the activity branch; this is the bridge justifying the inlined
dispatch in execute_seq_children. -/
theorem execute_block_of_type_activity (d : Dispatcher) (b : Block)
    (h : b.type? = some strActivity) :
    execute_block d b = execute_activity_block d b := by
  cases b with
  | node t n a u bs =>
    simp only [Block.type?] at h
    subst h
    exact execute_block_act d n a u bs

/-! Claim C7: unknown block types degrade to a single warning record. -/

/-- C7: for every block whose type is not one of activity, sequential or
parallel, evaluation succeeds (never fails or aborts), emits exactly the one
warning record carrying the unrecognized type name, and dispatches no task
(the call trace is empty). -/
theorem c7_unknown_type_warning (d : Dispatcher) (t : Str) (n? : Option Str)
    (a : List Str) (u? : Option Bool) (bs : Blocks)
    (h1 : t ≠ strActivity) (h2 : t ≠ strSequential) (h3 : t ≠ strParallel) :
    execute_block d (.node (some t) n? a u? bs) =
      .ok ⟨[warnUnknown t], [], .node (some t) n? a u? bs⟩ := by
  simp only [execute_block, Option.getD_some]
  rw [if_neg h1, if_neg h2, if_neg h3]

/-- Witness for C7 at the concrete unknown type loop. -/
theorem c7_witness :
    execute_block (fun _ _ => "r".toList) (.node (some "loop".toList) none [] none .nil) =
      .ok ⟨[warnUnknown "loop".toList], [], .node (some "loop".toList) none [] none .nil⟩ :=
  c7_unknown_type_warning (fun _ _ => "r".toList) "loop".toList none [] none .nil
    (by decide) (by decide) (by decide)

/-! Claim C8: empty documents evaluate to the empty output. -/

/-- C8: a document with an empty legacy activities list, one whose execution
block is the mapping with an empty blocks list, and one with neither key
populated all evaluate without error to the empty string output. -/
theorem c8_empty_documents (d : Dispatcher) :
    output d ⟨some [], none⟩ = .ok [] ∧
    output d ⟨none, some (.node none none [] none .nil)⟩ = .ok [] ∧
    output d ⟨none, none⟩ = .ok [] :=
  ⟨rfl, rfl, rfl⟩

/-! Claim C6: which type a block mapping without an explicit type gets. -/

/-- Dispatcher used by the C6 counterexample. -/
def dFoo : Dispatcher := fun _ _ => "res".toList

/-- Counterexample to C6: a mapping with activityName Foo and no type key is
not treated as an activity block: evaluating it dispatches nothing and
produces no record, while evaluating the same mapping with explicit type
activity dispatches Foo once.  The claimed default to activity is false. -/
theorem c6_counterexample :
    (execute_block dFoo (.node none (some "Foo".toList) [] none .nil)).map ExecOut.calls
        = .ok [] ∧
    (execute_block dFoo (.node (some strActivity) (some "Foo".toList) [] none .nil)).map
        ExecOut.calls = .ok [("Foo".toList, [])] ∧
    ([] : List (Str × List Str)) ≠ [("Foo".toList, [])] :=
  ⟨rfl, rfl, by decide⟩

/-- C6 amended: a block mapping with no type key defaults to type sequential
in every case, even when it contains an activity name: its evaluation
produces the same records and the same dispatch trace as the same mapping
with explicit type sequential. -/
theorem c6_default_type (d : Dispatcher) (n? : Option Str) (a : List Str)
    (u? : Option Bool) (bs : Blocks) :
    (execute_block d (.node none n? a u? bs)).map (fun o => (o.records, o.calls)) =
      (execute_block d (.node (some strSequential) n? a u? bs)).map
        (fun o => (o.records, o.calls)) := by
  rw [execute_block_none, execute_block_seq]
  cases execute_seq_children d bs [] <;> rfl

/-! Claim C2: which children feed the sequential data-flow channel. -/

/-- C2 amended: in a sequential block, a child without explicit type
activity (composite, unknown, or untyped) contributes nothing to the
data-flow channel: the remaining children are evaluated with the
accumulated data exactly as it was before that child, so no value derived
from a composite child (in particular no warning text) is ever forwarded.
Only children with explicit type activity extend the accumulated data. -/
theorem c2_composite_no_dataflow (d : Dispatcher) (b : Block) (rest : Blocks)
    (acc : List Str) (o : ExecOut) (hty : b.type? ≠ some strActivity)
    (hb : execute_block d b = .ok o) :
    execute_seq_children d (.cons b rest) acc =
      (execute_seq_children d rest acc).map
        (fun r => ⟨o.records ++ r.records, o.calls ++ r.calls, .cons o.post r.posts⟩) := by
  have hc : ¬(b.type? = some strActivity ∧ b.useDataFlow?.getD true = true) :=
    fun hh => hty hh.1
  simp only [execute_seq_children, if_neg hc, if_neg hty, hb]
  cases execute_seq_children d rest acc <;> rfl

/-- Dispatcher used by the C2 counterexample and witness. -/
def dRb : Dispatcher := fun _ _ => "rb".toList

/-- Sequential block of the C2 counterexample: an unknown-type child
followed by an activity child B with no explicit args. -/
def seqLoopB : Block :=
  .node (some strSequential) none [] none
    (.cons (.node (some "loop".toList) none [] none .nil)
      (.cons (.node (some strActivity) (some "B".toList) [] none .nil) .nil))

/-- Counterexample to C2: after the composite (unknown-type) child, whose
last and only record is the warning line, the next activity B is dispatched
with its own empty argument list, not with the warning text prepended, so
the last record of a composite child is not forwarded as inbound value. -/
theorem c2_counterexample :
    (execute_block dRb seqLoopB).map ExecOut.calls
        = .ok [("B".toList, ([] : List Str))] ∧
    [("B".toList, ([] : List Str))]
        ≠ [("B".toList, ["Warning: Unknown block type loop".toList])] :=
  ⟨rfl, by decide⟩

/-- Witness for C2 amended at a concrete composite child. -/
theorem c2_witness :
    execute_seq_children dRb
        (.cons (.node (some "loop".toList) none [] none .nil) .nil) [] =
      (execute_seq_children dRb .nil []).map
        (fun r => ⟨["Warning: Unknown block type loop".toList] ++ r.records,
          [] ++ r.calls,
          .cons (.node (some "loop".toList) none [] none .nil) r.posts⟩) :=
  c2_composite_no_dataflow dRb (.node (some "loop".toList) none [] none .nil) .nil []
    ⟨["Warning: Unknown block type loop".toList], [],
      .node (some "loop".toList) none [] none .nil⟩
    (by decide) rfl

/-! Claim C3: what useDataFlow false means for a sequential step. -/

/-- C3 amended: a sequential activity child with useDataFlow false is itself
dispatched with exactly its own explicit args, whatever data has accumulated
before it; but its result record still feeds the data-flow channel, so the
step after it is evaluated with the accumulated data extended by the value
extracted from this step (useDataFlow disables consumption by the step that
carries it, not production for the next step). -/
theorem c3_udf_false_consumption (d : Dispatcher) (n : Str) (a : List Str)
    (bs rest : Blocks) (acc : List Str) :
    execute_seq_children d
        (.cons (.node (some strActivity) (some n) a (some false) bs) rest) acc =
      (execute_seq_children d rest (acc ++ [stripResult (fmtRecord n (d n a))])).map
        (fun r => ⟨fmtRecord n (d n a) :: r.records, (n, a) :: r.calls,
          .cons (.node (some strActivity) (some n) a (some false) bs) r.posts⟩) := by
  have hc : ¬((Block.node (some strActivity) (some n) a (some false) bs).type?
      = some strActivity ∧
      (Block.node (some strActivity) (some n) a (some false) bs).useDataFlow?.getD true
        = true) := by
    simp [Block.type?, Block.useDataFlow?]
  simp only [execute_seq_children, if_neg hc,
    if_pos (show (Block.node (some strActivity) (some n) a (some false) bs).type?
      = some strActivity from rfl),
    execute_activity_block, Block.activityName?, Block.args, List.getLast?_singleton]
  cases execute_seq_children d rest (acc ++ [stripResult (fmtRecord n (d n a))]) <;> rfl

/-- Dispatcher used by the C3 counterexample: activity A yields ra, any
other activity yields rb. -/
def dAra : Dispatcher := fun n _ => if n = "A".toList then "ra".toList else "rb".toList

/-- Sequential block of the C3 counterexample: activity A with useDataFlow
false, then activity B with no explicit args. -/
def seqAfB : Block :=
  .node (some strSequential) none [] none
    (.cons (.node (some strActivity) (some "A".toList) [] (some false) .nil)
      (.cons (.node (some strActivity) (some "B".toList) [] none .nil) .nil))

/-- Counterexample to C3: A carries useDataFlow false, yet the activity B
that follows it is dispatched with the extracted result ra of A prepended,
so the args of the next activity are not its own explicit (empty) args. -/
theorem c3_counterexample :
    (execute_block dAra seqAfB).map ExecOut.calls
        = .ok [("A".toList, ([] : List Str)), ("B".toList, ["ra".toList])] ∧
    (["ra".toList] : List Str) ≠ [] :=
  ⟨rfl, by decide⟩

/-! Claim C5: the legacy activities list takes priority and threads no data. -/

/-- Closed form of the legacy path when every invocation has a name: one
record per invocation, and each dispatched exactly with its own args in
document order. -/
theorem execute_legacy_ok (d : Dispatcher) (acts : List ActivityDef)
    (h : ∀ a ∈ acts, a.activityName?.isSome = true) :
    execute_legacy_activities d acts =
      .ok (acts.map (fun a => fmtRecord (a.activityName?.getD [])
              (d (a.activityName?.getD []) a.args)),
           acts.map (fun a => (a.activityName?.getD [], a.args))) := by
  induction acts with
  | nil => rfl
  | cons a rest ih =>
    obtain ⟨n, hn⟩ := Option.isSome_iff_exists.mp (h a (by simp))
    have hr := ih (fun x hx => h x (by simp [hx]))
    simp only [execute_legacy_activities, hn, hr, List.map_cons, Option.getD_some]

/-- C5: a document carrying the legacy activities key is evaluated as the
flat legacy list whatever the execution key holds, the output has exactly
one record per invocation, and the dispatch trace is the document-order
list of the invocations, each with exactly its own args (no data threading
between steps). -/
theorem c5_legacy_priority (d : Dispatcher) (acts : List ActivityDef)
    (exb : Option Block) (h : ∀ a ∈ acts, a.activityName?.isSome = true) :
    ∃ out : RunOut,
      run d ⟨some acts, exb⟩ = .ok out ∧
      run d ⟨some acts, none⟩ = .ok out ∧
      out.records.length = acts.length ∧
      out.calls = acts.map (fun a => (a.activityName?.getD [], a.args)) := by
  refine ⟨⟨acts.map (fun a => fmtRecord (a.activityName?.getD [])
      (d (a.activityName?.getD []) a.args)),
    acts.map (fun a => (a.activityName?.getD [], a.args))⟩, ?_, ?_, by simp, rfl⟩
  · simp only [run, execute_legacy_ok d acts h]
  · simp only [run, execute_legacy_ok d acts h]

/-- Dispatcher used by the C5 witness. -/
def dApprove : Dispatcher := fun _ _ => "approve".toList

/-- Witness for C5 at the concrete one-element legacy document that also
carries an execution key. -/
theorem c5_witness :
    ∃ out : RunOut,
      run dApprove ⟨some [⟨some "CheckPolicy".toList, ["test".toList]⟩],
          some emptyBlock⟩ = .ok out ∧
      run dApprove ⟨some [⟨some "CheckPolicy".toList, ["test".toList]⟩], none⟩
          = .ok out ∧
      out.records.length = [(⟨some "CheckPolicy".toList, ["test".toList]⟩ : ActivityDef)].length ∧
      out.calls = [(⟨some "CheckPolicy".toList, ["test".toList]⟩ : ActivityDef)].map
          (fun a => (a.activityName?.getD [], a.args)) :=
  c5_legacy_priority dApprove [⟨some "CheckPolicy".toList, ["test".toList]⟩]
    (some emptyBlock) (by decide)

/-! Claim C4: parallel children are independent and reassembled in order. -/

/-- Records a block produces when evaluated on its own (empty on failure). -/
def childRecords (d : Dispatcher) (b : Block) : List Str :=
  match execute_block d b with
  | .ok o => o.records
  | .error _ => []

/-- Dispatch calls a block produces when evaluated on its own. -/
def childCalls (d : Dispatcher) (b : Block) : List (Str × List Str) :=
  match execute_block d b with
  | .ok o => o.calls
  | .error _ => []

/-- Successful parallel evaluation is the concatenation, in document order,
of the standalone evaluation of every child. -/
theorem execute_par_ok (d : Dispatcher) : ∀ (bs : Blocks) (r : ExecsOut),
    execute_par_children d bs = .ok r →
    r.records = (bs.toList.map (childRecords d)).flatten ∧
    r.calls = (bs.toList.map (childCalls d)).flatten ∧
    ∀ b ∈ bs.toList, ∃ ob, execute_block d b = .ok ob
  | Blocks.nil, r, h => by
    cases h
    simp [Blocks.toList]
  | Blocks.cons b rest, r, h => by
    simp only [execute_par_children] at h
    cases hb : execute_block d b with
    | error e => rw [hb] at h; cases h
    | ok ob =>
      rw [hb] at h
      cases hr : execute_par_children d rest with
      | error e => rw [hr] at h; cases h
      | ok rr =>
        rw [hr] at h
        cases h
        obtain ⟨h1, h2, h3⟩ := execute_par_ok d rest rr hr
        refine ⟨?_, ?_, ?_⟩
        · simp [Blocks.toList, childRecords, hb, h1]
        · simp [Blocks.toList, childCalls, hb, h2]
        · intro x hx
          rcases (by simpa [Blocks.toList] using hx : x = b ∨ x ∈ rest.toList) with
            hx | hx
          · exact ⟨ob, hx ▸ hb⟩
          · exact h3 x hx

/-- C4: on success, the records of a parallel block are the concatenation
in original document order of the records each child produces when
evaluated entirely on its own (so are the dispatch calls), and every child
was evaluated independently: no parallel child ever receives an inbound
value derived from a sibling. -/
theorem c4_parallel_order (d : Dispatcher) (n? : Option Str) (a : List Str)
    (u? : Option Bool) (bs : Blocks) (o : ExecOut)
    (h : execute_block d (.node (some strParallel) n? a u? bs) = .ok o) :
    o.records = (bs.toList.map (childRecords d)).flatten ∧
    o.calls = (bs.toList.map (childCalls d)).flatten ∧
    ∀ b ∈ bs.toList, ∃ ob, execute_block d b = .ok ob := by
  rw [execute_block_par] at h
  cases hr : execute_par_children d bs with
  | error e => rw [hr] at h; cases h
  | ok r =>
    rw [hr] at h
    cases h
    simpa using execute_par_ok d bs r hr

/-- Dispatcher used by the C4 witness. -/
def dXy : Dispatcher := fun n _ => if n = "X".toList then "rx".toList else "ry".toList

/-- Parallel block of the C4 witness: activities X and Y. -/
def parXY : Block :=
  .node (some strParallel) none [] none
    (.cons (.node (some strActivity) (some "X".toList) [] none .nil)
      (.cons (.node (some strActivity) (some "Y".toList) [] none .nil) .nil))

/-- Witness for C4 at the concrete two-child parallel block. -/
theorem c4_witness :
    ∃ o : ExecOut, execute_block dXy parXY = .ok o ∧
      o.records = ((parXY.blocks.toList.map (childRecords dXy)).flatten) :=
  ⟨⟨[fmtRecord "X".toList "rx".toList, fmtRecord "Y".toList "ry".toList],
    [("X".toList, []), ("Y".toList, [])], parXY⟩, rfl,
    (c4_parallel_order dXy none [] none parXY.blocks _ rfl).1⟩

/-! Claim C9: is the block tree left unchanged by evaluation? -/

mutual

/-- Erasure of every args entry of a block tree. -/
def eraseArgsB : Block → Block
  | .node t n _ u bs => .node t n [] u (eraseArgsL bs)

/-- Erasure of every args entry of a list of blocks. -/
def eraseArgsL : Blocks → Blocks
  | .nil => .nil
  | .cons b bs => .cons (eraseArgsB b) (eraseArgsL bs)

end

/-- Overwriting the args entry changes nothing after erasure. -/
theorem eraseArgsB_withArgs (b : Block) (a : List Str) :
    eraseArgsB (b.withArgs a) = eraseArgsB b := by
  cases b; rfl

/-- Activity evaluation returns the very block it was given. -/
theorem execute_activity_post (d : Dispatcher) (b : Block) (o : ExecOut)
    (h : execute_activity_block d b = .ok o) : o.post = b := by
  unfold execute_activity_block at h
  cases hn : b.activityName? with
  | none => rw [hn] at h; cases h
  | some n => rw [hn] at h; cases h; rfl

mutual

/-- Successful evaluation can only change args entries of the tree. -/
theorem erase_post_block (d : Dispatcher) : ∀ (b : Block) (o : ExecOut),
    execute_block d b = .ok o → eraseArgsB o.post = eraseArgsB b
  | .node t n a u bs, o, h => by
    simp only [execute_block] at h
    by_cases h1 : t.getD strSequential = strActivity
    · rw [if_pos h1] at h
      rw [execute_activity_post d _ o h]
    · rw [if_neg h1] at h
      by_cases h2 : t.getD strSequential = strSequential
      · rw [if_pos h2] at h
        cases hs : execute_seq_children d bs [] with
        | error e => rw [hs] at h; cases h
        | ok r =>
          rw [hs] at h; cases h
          simp only [eraseArgsB, erase_post_seq d bs [] r hs]
      · rw [if_neg h2] at h
        by_cases h3 : t.getD strSequential = strParallel
        · rw [if_pos h3] at h
          cases hs : execute_par_children d bs with
          | error e => rw [hs] at h; cases h
          | ok r =>
            rw [hs] at h; cases h
            simp only [eraseArgsB, erase_post_par d bs r hs]
        · rw [if_neg h3] at h
          cases h; rfl

/-- Successful sequential evaluation can only change args entries. -/
theorem erase_post_seq (d : Dispatcher) : ∀ (bs : Blocks) (acc : List Str)
    (r : ExecsOut), execute_seq_children d bs acc = .ok r →
    eraseArgsL r.posts = eraseArgsL bs
  | .nil, _, r, h => by cases h; rfl
  | .cons b rest, acc, r, h => by
    simp only [execute_seq_children] at h
    by_cases hact : b.type? = some strActivity
    · rw [if_pos hact] at h
      have hber : ∀ o1, execute_activity_block d
          (if b.type? = some strActivity ∧ b.useDataFlow?.getD true = true then
            match acc.getLast? with
            | some v => b.withArgs (v :: b.args)
            | none => b
          else b) = .ok o1 → eraseArgsB o1.post = eraseArgsB b := by
        intro o1 h1
        rw [execute_activity_post d _ o1 h1]
        split
        · cases acc.getLast? with
          | none => rfl
          | some v => exact eraseArgsB_withArgs b (v :: b.args)
        · rfl
      cases hres : execute_activity_block d
          (if b.type? = some strActivity ∧ b.useDataFlow?.getD true = true then
            match acc.getLast? with
            | some v => b.withArgs (v :: b.args)
            | none => b
          else b) with
      | error e => rw [hres] at h; cases h
      | ok o1 =>
        simp only [hres] at h
        cases ht : execute_seq_children d rest
            (if b.type? = some strActivity then
              match o1.records.getLast? with
              | some s => acc ++ [stripResult s]
              | none => acc
            else acc) with
        | error e => rw [ht] at h; cases h
        | ok r2 =>
          rw [ht] at h; cases h
          simp only [eraseArgsL, hber o1 hres, erase_post_seq d rest _ r2 ht]
    · rw [if_neg hact] at h
      cases hres : execute_block d b with
      | error e => rw [hres] at h; cases h
      | ok o1 =>
        simp only [hres] at h
        cases ht : execute_seq_children d rest
            (if b.type? = some strActivity then
              match o1.records.getLast? with
              | some s => acc ++ [stripResult s]
              | none => acc
            else acc) with
        | error e => rw [ht] at h; cases h
        | ok r2 =>
          rw [ht] at h; cases h
          simp only [eraseArgsL, erase_post_block d b o1 hres,
            erase_post_seq d rest _ r2 ht]

/-- Successful parallel evaluation can only change args entries. -/
theorem erase_post_par (d : Dispatcher) : ∀ (bs : Blocks) (r : ExecsOut),
    execute_par_children d bs = .ok r → eraseArgsL r.posts = eraseArgsL bs
  | .nil, r, h => by cases h; rfl
  | .cons b rest, r, h => by
    simp only [execute_par_children] at h
    cases hb : execute_block d b with
    | error e => rw [hb] at h; cases h
    | ok ob =>
      rw [hb] at h
      cases hr : execute_par_children d rest with
      | error e => rw [hr] at h; cases h
      | ok rr =>
        rw [hr] at h; cases h
        simp only [eraseArgsL, erase_post_block d b ob hb,
          erase_post_par d rest rr hr]

end

/-- C9 amended: evaluation does not leave the block tree unchanged in
general (the counterexample shows an args entry being overwritten), but it
changes nothing beyond args entries: after erasing every args entry, the
post-evaluation tree equals the original tree, so types, names, useDataFlow
flags and the tree shape are all preserved. -/
theorem c9_frame_args_only (d : Dispatcher) (b : Block) (o : ExecOut)
    (h : execute_block d b = .ok o) : eraseArgsB o.post = eraseArgsB b :=
  erase_post_block d b o h

/-- Dispatcher used by the C9 counterexample and witness. -/
def dRa9 : Dispatcher := fun _ _ => "ra".toList

/-- Sequential block of the C9 counterexample: activities A then B, both
with empty args and default useDataFlow. -/
def seqAB9 : Block :=
  .node (some strSequential) none [] none
    (.cons (.node (some strActivity) (some "A".toList) [] none .nil)
      (.cons (.node (some strActivity) (some "B".toList) [] none .nil) .nil))

/-- Value of the C9 block after evaluation: the args entry of child B now
holds the forwarded value ra. -/
def postAB9 : Block :=
  .node (some strSequential) none [] none
    (.cons (.node (some strActivity) (some "A".toList) [] none .nil)
      (.cons (.node (some strActivity) (some "B".toList) ["ra".toList] none .nil) .nil))

/-- Counterexample to C9: evaluating the sequential block A then B succeeds
but leaves the tree changed: the args entry of child B was overwritten with
the inbound value, so the block value after evaluation differs from the
block value before. -/
theorem c9_counterexample :
    ∃ o : ExecOut, execute_block dRa9 seqAB9 = .ok o ∧ o.post ≠ seqAB9 := by
  refine ⟨⟨[fmtRecord "A".toList "ra".toList, fmtRecord "B".toList "ra".toList],
    [("A".toList, []), ("B".toList, ["ra".toList])], postAB9⟩, rfl, ?_⟩
  intro hEq
  simp only [postAB9, seqAB9, Block.node.injEq, Blocks.cons.injEq, and_true,
    true_and] at hEq
  exact absurd hEq (by decide)

/-- Witness for C9 amended at the concrete block of the counterexample. -/
theorem c9_witness :
    ∃ o : ExecOut, execute_block dRa9 seqAB9 = .ok o ∧
      eraseArgsB o.post = eraseArgsB seqAB9 :=
  ⟨⟨[fmtRecord "A".toList "ra".toList, fmtRecord "B".toList "ra".toList],
    [("A".toList, []), ("B".toList, ["ra".toList])], postAB9⟩, rfl,
    c9_frame_args_only dRa9 seqAB9 _ rfl⟩

/-! Claim C1: data flow along a sequential block of activity children. -/

/-- An activity child given by its name and explicit args (default
useDataFlow, no nested blocks). -/
def mkAct (p : Str × List Str) : Block :=
  .node (some strActivity) (some p.1) p.2 none .nil

/-- Closed form of the sequential loop on a list of activity children: each
child is dispatched with the inbound value (the stripped previous record)
prepended when one exists, and produces one record; the outcome lists the
records, the calls, and, via the calls, the mutated children. -/
def chainExec (d : Dispatcher) (inb : Option Str) :
    List (Str × List Str) → List Str × List (Str × List Str)
  | [] => ([], [])
  | p :: rest =>
    let args := match inb with | none => p.2 | some v => v :: p.2
    let r0 := fmtRecord p.1 (d p.1 args)
    let t := chainExec d (some (stripResult r0)) rest
    (r0 :: t.1, (p.1, args) :: t.2)

/-- The sequential loop on activity children equals its closed form; the
inbound value is the last accumulated entry. -/
theorem seq_acts_chain (d : Dispatcher) : ∀ (cs : List (Str × List Str))
    (acc : List Str),
    execute_seq_children d (Blocks.ofList (cs.map mkAct)) acc =
      .ok ⟨(chainExec d acc.getLast? cs).1, (chainExec d acc.getLast? cs).2,
        Blocks.ofList ((chainExec d acc.getLast? cs).2.map mkAct)⟩
  | [], acc => by
    simp [chainExec, Blocks.ofList, execute_seq_children]
  | (n, a) :: cs, acc => by
    cases hl : acc.getLast? with
    | none =>
      have hrec := seq_acts_chain d cs (acc ++ [stripResult (fmtRecord n (d n a))])
      rw [List.getLast?_concat] at hrec
      simp [List.map_cons, Blocks.ofList, execute_seq_children, mkAct,
        Block.type?, Block.useDataFlow?, Block.args, Block.withArgs,
        execute_activity_block, Block.activityName?, hl, hrec, chainExec]
    | some v =>
      have hrec := seq_acts_chain d cs
        (acc ++ [stripResult (fmtRecord n (d n (v :: a)))])
      rw [List.getLast?_concat] at hrec
      simp [List.map_cons, Blocks.ofList, execute_seq_children, mkAct,
        Block.type?, Block.useDataFlow?, Block.args, Block.withArgs,
        execute_activity_block, Block.activityName?, hl, hrec, chainExec]

/-- The closed form yields one record per child. -/
theorem chain_len_records (d : Dispatcher) : ∀ (cs : List (Str × List Str))
    (inb : Option Str), (chainExec d inb cs).1.length = cs.length
  | [], _ => rfl
  | _ :: cs, inb => by simp [chainExec, chain_len_records d cs]

/-- The closed form yields one dispatch call per child. -/
theorem chain_len_calls (d : Dispatcher) : ∀ (cs : List (Str × List Str))
    (inb : Option Str), (chainExec d inb cs).2.length = cs.length
  | [], _ => rfl
  | _ :: cs, inb => by simp [chainExec, chain_len_calls d cs]

/-- Every dispatch call of the closed form carries the name of its child. -/
theorem chain_names (d : Dispatcher) : ∀ (cs : List (Str × List Str))
    (inb : Option Str) (j : Nat), j < cs.length →
    ((chainExec d inb cs).2.getD j ([], [])).1 = (cs.getD j ([], [])).1
  | [], _, j, h => absurd h (by simp)
  | p :: cs, inb, 0, _ => by simp [chainExec]
  | p :: cs, inb, j + 1, h => by
    simp only [chainExec, List.getD_cons_succ]
    exact chain_names d cs _ j (by simpa using h)

/-- With no inbound value the first child is dispatched with its own args. -/
theorem chain_head_none (d : Dispatcher) (n : Str) (a : List Str)
    (cs : List (Str × List Str)) :
    ((chainExec d none ((n, a) :: cs)).2.getD 0 ([], [])).2 = a := by
  simp [chainExec]

/-- With an inbound value the first child is dispatched with it prepended. -/
theorem chain_head_some (d : Dispatcher) (v n : Str) (a : List Str)
    (cs : List (Str × List Str)) :
    ((chainExec d (some v) ((n, a) :: cs)).2.getD 0 ([], [])).2 = v :: a := by
  simp [chainExec]

/-- Each later child is dispatched with the stripped previous record
prepended to its own explicit args. -/
theorem chain_step (d : Dispatcher) : ∀ (cs : List (Str × List Str))
    (inb : Option Str) (j : Nat), j + 1 < cs.length →
    ((chainExec d inb cs).2.getD (j + 1) ([], [])).2
      = stripResult ((chainExec d inb cs).1.getD j [])
        :: (cs.getD (j + 1) ([], [])).2
  | [], _, j, h => absurd h (by simp)
  | p :: (m, b) :: cs, inb, 0, _ => by
    simp [chainExec]
  | p :: q :: cs, none, j + 1, h => by
    have ih := chain_step d (q :: cs)
      (some (stripResult (fmtRecord p.1 (d p.1 p.2)))) j (by simpa using h)
    simpa only [chainExec, List.getD_cons_succ] using ih
  | p :: q :: cs, some v, j + 1, h => by
    have ih := chain_step d (q :: cs)
      (some (stripResult (fmtRecord p.1 (d p.1 (v :: p.2))))) j (by simpa using h)
    simpa only [chainExec, List.getD_cons_succ] using ih

/-- Every record of the closed form is the formatted dispatcher result of
its own call. -/
theorem chain_records (d : Dispatcher) : ∀ (cs : List (Str × List Str))
    (inb : Option Str) (j : Nat), j < cs.length →
    (chainExec d inb cs).1.getD j []
      = fmtRecord ((chainExec d inb cs).2.getD j ([], [])).1
        (d ((chainExec d inb cs).2.getD j ([], [])).1
          ((chainExec d inb cs).2.getD j ([], [])).2)
  | [], _, j, h => absurd h (by simp)
  | p :: cs, inb, 0, _ => by simp [chainExec]
  | p :: cs, inb, j + 1, h => by
    simp only [chainExec, List.getD_cons_succ]
    exact chain_records d cs _ j (by simpa using h)

/-- C1 amended: for a sequential block of activity children with default
useDataFlow, evaluation succeeds, dispatches once per child in document
order, the first child with exactly its own args, and each later child
with the extracted value of the previous record (the suffix of that record
after its first occurrence of the label infix, which is the raw previous
result whenever the previous name is unambiguous) prepended as first
positional argument, its own explicit args following in order; every
record is the formatted result the dispatcher returned for that call. -/
theorem c1_sequential_dataflow (d : Dispatcher) (cs : List (Str × List Str)) :
    ∃ out : ExecOut,
      execute_block d (.node (some strSequential) none [] none
        (Blocks.ofList (cs.map mkAct))) = .ok out ∧
      out.calls.length = cs.length ∧
      out.records.length = cs.length ∧
      (∀ j, j < cs.length →
        (out.calls.getD j ([], [])).1 = (cs.getD j ([], [])).1) ∧
      (∀ n a cs', cs = (n, a) :: cs' → (out.calls.getD 0 ([], [])).2 = a) ∧
      (∀ j, j + 1 < cs.length →
        (out.calls.getD (j + 1) ([], [])).2
          = stripResult (out.records.getD j []) :: (cs.getD (j + 1) ([], [])).2) ∧
      (∀ j, j < cs.length →
        out.records.getD j [] = fmtRecord ((out.calls.getD j ([], [])).1)
          (d ((out.calls.getD j ([], [])).1) ((out.calls.getD j ([], [])).2))) := by
  refine ⟨⟨(chainExec d none cs).1, (chainExec d none cs).2,
    .node (some strSequential) none [] none
      (Blocks.ofList ((chainExec d none cs).2.map mkAct))⟩, ?_, ?_, ?_, ?_, ?_, ?_, ?_⟩
  · rw [execute_block_seq, seq_acts_chain d cs []]
    rfl
  · exact chain_len_calls d cs none
  · exact chain_len_records d cs none
  · exact chain_names d cs none
  · intro n a cs' hcs
    subst hcs
    exact chain_head_none d n a cs'
  · exact chain_step d cs none
  · exact chain_records d cs none

/-- Dispatcher used by the C1 counterexample. -/
def dRr : Dispatcher := fun _ _ => "r".toList

/-- Sequential block of the C1 counterexample: activity P whose name
contains the label infix, then activity Q. -/
def seqPQ : Block :=
  .node (some strSequential) none [] none
    (.cons (.node (some strActivity) (some "PResult: X".toList) [] none .nil)
      (.cons (.node (some strActivity) (some "Q".toList) [] none .nil) .nil))

/-- Counterexample to C1: P returns the raw result r, but Q is dispatched
with the value X Result: r prepended (the split takes everything after the
first occurrence of the label infix, which here lies inside the name of P),
not with the raw result r of P. -/
theorem c1_counterexample :
    (execute_block dRr seqPQ).map ExecOut.calls =
      .ok [("PResult: X".toList, []), ("Q".toList, ["X Result: r".toList])] ∧
    "X Result: r".toList ≠ "r".toList :=
  ⟨rfl, by decide⟩

/-! Claim C10: the round trip of record formatting and data-flow
extraction.  The extraction splits at the FIRST occurrence of the label
infix in the whole record line, so the occurrence the format introduced is
only found when no earlier occurrence arises inside the name part. -/

/-- The label infix as an exposed cons cell. -/
theorem resPat_eq : resPat = 'R' :: "esult: ".toList := by decide

/-- A character other than R at the head cannot start an occurrence. -/
theorem containsSub_cons_ne {c : Char} (hc : ('R' == c) = false) (m : Str) :
    containsSub resPat (c :: m) = containsSub resPat m := by
  show (resPat.isPrefixOf (c :: m) || containsSub resPat m) = containsSub resPat m
  rw [resPat_eq]
  show ((('R' == c) && List.isPrefixOf "esult: ".toList m)
    || containsSub ('R' :: "esult: ".toList) m) = containsSub ('R' :: "esult: ".toList) m
  rw [hc, Bool.false_and, Bool.false_or]

/-- The fixed Activity label contains no R, so occurrences of the label
infix in a record line never start inside it. -/
theorem containsSub_activity (m : Str) :
    containsSub resPat ("Activity ".toList ++ m) = containsSub resPat m := by
  show containsSub resPat
    ('A' :: 'c' :: 't' :: 'i' :: 'v' :: 'i' :: 't' :: 'y' :: ' ' :: m)
    = containsSub resPat m
  rw [containsSub_cons_ne (by decide), containsSub_cons_ne (by decide),
    containsSub_cons_ne (by decide), containsSub_cons_ne (by decide),
    containsSub_cons_ne (by decide), containsSub_cons_ne (by decide),
    containsSub_cons_ne (by decide), containsSub_cons_ne (by decide),
    containsSub_cons_ne (by decide)]

/-- A nonempty pattern that starts a list occurs in it. -/
theorem containsSub_of_IsPrefix {p l : Str} (hp : p ≠ []) (h : p <+: l) :
    containsSub p l = true := by
  cases l with
  | nil => exact absurd (List.prefix_nil.mp h) hp
  | cons c rest =>
    show (p.isPrefixOf (c :: rest) || containsSub p rest) = true
    rw [List.isPrefixOf_iff_prefix.mpr h, Bool.true_or]

/-- Occurrence in a suffix gives occurrence in the whole list. -/
theorem containsSub_of_suffix (p : Str) : ∀ (l : List Char) (l' : Str),
    l' <:+ l → containsSub p l' = true → containsSub p l = true
  | [], l', hs, hc => by rwa [List.suffix_nil.mp hs] at hc
  | c :: rest, l', hs, hc => by
    rcases List.suffix_cons_iff.mp hs with h | h
    · rwa [h] at hc
    · show (p.isPrefixOf (c :: rest) || containsSub p rest) = true
      rw [containsSub_of_suffix p rest l' h hc, Bool.or_true]

/-- The label infix occurs in any list that carries it in the middle. -/
theorem containsSub_mid (l1 l2 : Str) :
    containsSub resPat (l1 ++ (resPat ++ l2)) = true :=
  containsSub_of_suffix resPat _ (resPat ++ l2) ⟨l1, rfl⟩
    (containsSub_of_IsPrefix (by decide) (List.prefix_append _ _))

/-- When no occurrence of the label infix starts inside l1, the split after
the first occurrence lands exactly after the explicit infix. -/
theorem afterFirst_first_occurrence (l2 : Str) : ∀ (l1 : Str),
    (∀ l1', l1' <:+ l1 → l1' ≠ [] →
      resPat.isPrefixOf (l1' ++ (resPat ++ l2)) = false) →
    afterFirst resPat (l1 ++ (resPat ++ l2)) = l2
  | [], _ => by
    have h1 : resPat.isPrefixOf (resPat ++ l2) = true :=
      List.isPrefixOf_iff_prefix.mpr (List.prefix_append _ _)
    show (if resPat.isPrefixOf ('R' :: ("esult: ".toList ++ l2)) = true then
        ('R' :: ("esult: ".toList ++ l2)).drop resPat.length
      else afterFirst resPat ("esult: ".toList ++ l2)) = l2
    rw [if_pos (show resPat.isPrefixOf ('R' :: ("esult: ".toList ++ l2)) = true from h1)]
    rfl
  | c :: l1, H => by
    have h0 : resPat.isPrefixOf ((c :: l1) ++ (resPat ++ l2)) = false :=
      H (c :: l1) (List.suffix_refl _) (by simp)
    show (if resPat.isPrefixOf ((c :: l1) ++ (resPat ++ l2)) = true then
        ((c :: l1) ++ (resPat ++ l2)).drop resPat.length
      else afterFirst resPat (l1 ++ (resPat ++ l2))) = l2
    rw [if_neg (by rw [h0]; simp)]
    exact afterFirst_first_occurrence l2 l1
      (fun l1' hs hne => H l1' (hs.trans (List.suffix_cons c l1)) hne)

/-- When the name followed by a space does not contain the label infix, no
occurrence of the label infix in the record line starts before the one the
record format introduced. -/
theorem no_mid_occurrence (n l2 : Str)
    (h : containsSub resPat (n ++ [' ']) = false) :
    ∀ l1', l1' <:+ ("Activity ".toList ++ (n ++ [' '])) → l1' ≠ [] →
    resPat.isPrefixOf (l1' ++ (resPat ++ l2)) = false := by
  intro l1' hs hne
  by_contra hb
  have hp : resPat <+: l1' ++ (resPat ++ l2) := by
    rw [← List.isPrefixOf_iff_prefix]
    revert hb
    cases resPat.isPrefixOf (l1' ++ (resPat ++ l2)) <;> simp
  rcases le_or_lt resPat.length l1'.length with hl | hl
  · have h1 : resPat <+: l1' :=
      List.prefix_of_prefix_length_le hp (List.prefix_append _ _) hl
    have h2 : containsSub resPat l1' = true :=
      containsSub_of_IsPrefix (by decide) h1
    have h3 : containsSub resPat ("Activity ".toList ++ (n ++ [' '])) = true :=
      containsSub_of_suffix resPat _ l1' hs h2
    rw [containsSub_activity] at h3
    rw [h] at h3
    cases h3
  · have h1 : l1' <+: resPat :=
      List.prefix_of_prefix_length_le (List.prefix_append _ _) hp (le_of_lt hl)
    obtain ⟨s, hsp⟩ := hs
    have hlast : l1'.getLast? = some ' ' := by
      have h5 : (s ++ l1').getLast? = l1'.getLast?.or s.getLast? :=
        List.getLast?_append
      have h6 : ("Activity ".toList ++ (n ++ [' '])).getLast? = some ' ' := by
        rw [show "Activity ".toList ++ (n ++ [' '])
          = ("Activity ".toList ++ n) ++ [' '] from (List.append_assoc _ _ _).symm]
        exact List.getLast?_concat _
      rw [hsp, h6] at h5
      cases hgl : l1'.getLast? with
      | none => exact absurd (List.getLast?_eq_none_iff.mp hgl) hne
      | some x =>
        rw [hgl] at h5
        simpa using h5.symm
    have hmem : ' ' ∈ l1' := List.mem_of_getLast?_eq_some hlast
    have ht : l1'.length ≤ 7 := by
      have : resPat.length = 8 := by decide
      omega
    have h7 : l1' <+: "Result:".toList := by
      have h8 : l1' = resPat.take l1'.length := List.prefix_iff_eq_take.mp h1
      have h9 : resPat.take l1'.length = "Result:".toList.take l1'.length := by
        rw [show ("Result:".toList : Str) = resPat.take 7 from by decide,
          List.take_take]
        congr 1
        omega
      rw [h8, h9]
      exact ⟨_, List.take_append_drop _ _⟩
    have : ' ' ∈ "Result:".toList := h7.subset hmem
    exact absurd this (by decide)

/-- C10 amended: formatting a record for an activity name and then
stripping everything up to and after the first occurrence of the label
infix returns the raw result exactly, provided the name followed by a
space does not contain the label infix (equivalently: the name neither
contains it nor ends in the label word with colon); the original claim
misses the second proviso. -/
theorem c10_roundtrip (n r : Str)
    (h : containsSub resPat (n ++ [' ']) = false) :
    stripResult (fmtRecord n r) = r := by
  have h9 : (" Result: ".toList : Str) = [' '] ++ resPat := by decide
  have hsplit : fmtRecord n r
      = ("Activity ".toList ++ (n ++ [' '])) ++ (resPat ++ r) := by
    simp [fmtRecord, h9, List.append_assoc]
    rw [resPat_eq]
    rfl
  rw [hsplit]
  unfold stripResult
  rw [if_pos (containsSub_mid _ r)]
  exact afterFirst_first_occurrence r ("Activity ".toList ++ (n ++ [' ']))
    (no_mid_occurrence n r h)

/-- Witness for C10 amended at a concrete benign name. -/
theorem c10_witness :
    stripResult (fmtRecord "CheckPolicy".toList "approve".toList)
      = "approve".toList :=
  c10_roundtrip "CheckPolicy".toList "approve".toList (by decide)

/-- Dispatcher used by the C10 counterexample: the activity named with the
bare label word yields r, anything else rb. -/
def dRq : Dispatcher := fun n _ => if n = "Result:".toList then "r".toList else "rb".toList

/-- Sequential block of the C10 counterexample: an activity whose name is
the label word with colon (but without the trailing space, so the name
does not contain the label infix), then activity B. -/
def seqRq : Block :=
  .node (some strSequential) none [] none
    (.cons (.node (some strActivity) (some "Result:".toList) [] none .nil)
      (.cons (.node (some strActivity) (some "B".toList) [] none .nil) .nil))

/-- Counterexample to C10: the first activity name does not contain the
label infix, its raw result is r, yet the inbound value forwarded to B is
the longer string formed by splitting at the occurrence that the name and
the following space create together, not the raw result. -/
theorem c10_counterexample :
    containsSub resPat "Result:".toList = false ∧
    (execute_block dRq seqRq).map ExecOut.calls
      = .ok [("Result:".toList, ([] : List Str)), ("B".toList, ["Result: r".toList])] ∧
    "Result: r".toList ≠ "r".toList :=
  ⟨by decide, rfl, by decide⟩

end DynWf
